import Mathlib

/-!
Shallow embedding of the resume/job-description matching core of the
"ai-resume-matcher" repository, together with theorems checking the
natural-language specification against it.

Strings are modelled as `List Char` (`Str`).  JavaScript string operations
are embedded character by character; `toLowerCase` is modelled on the ASCII
range (all catalog entries and all characters the claims exercise are
ASCII).  All definitions are structurally recursive so that concrete
instances evaluate inside the kernel (`decide` / `rfl`).
-/

/-- Strings are modelled as lists of characters. -/
abbrev Str := List Char

/-- ASCII portion of the JavaScript whitespace class `\s`
(space, tab, newline, carriage return, vertical tab, form feed). -/
def jsWhitespace (c : Char) : Bool :=
  c = ' ' || c = '\t' || c = '\n' || c = '\r' || c = '\x0b' || c = '\x0c'

/-- ASCII lowercasing of one character, modelling JavaScript
`String.prototype.toLowerCase` on the ASCII range: `A`-`Z` (codes 65-90)
map to `a`-`z`, everything else is unchanged. -/
def lowerChar (c : Char) : Char :=
  if 65 ≤ c.toNat ∧ c.toNat ≤ 90 then Char.ofNat (c.toNat + 32) else c

/-- Embedding of `text.toLowerCase()` (ASCII model). -/
def jsToLower (s : Str) : Str := s.map lowerChar

/-- The JavaScript word-character class `\w` = `[A-Za-z0-9_]` (ASCII). -/
def isWordChar (c : Char) : Bool :=
  decide ((97 ≤ c.toNat ∧ c.toNat ≤ 122) ∨ (65 ≤ c.toNat ∧ c.toNat ≤ 90) ∨
    (48 ≤ c.toNat ∧ c.toNat ≤ 57) ∨ c = '_')

/-- One step of `.replace(/[^\w\s.-]/g, ' ')`: a character that is not a
word character, whitespace, `.` or `-` becomes a single space. -/
def keepChar (c : Char) : Char :=
  if isWordChar c || jsWhitespace c || c = '.' || c = '-' then c else ' '

/-- Worker for `.replace(/\s+/g, ' ')`: the flag records whether the
previous character was whitespace (in which case the current whitespace
character belongs to an already-replaced run and is dropped). -/
def collapseAux : Bool → Str → Str
  | _, [] => []
  | prevWs, c :: rest =>
    if jsWhitespace c then
      if prevWs then collapseAux true rest else ' ' :: collapseAux true rest
    else c :: collapseAux false rest

/-- Embedding of `.replace(/\s+/g, ' ')`: every maximal run of whitespace
becomes one space. -/
def collapseWs (s : Str) : Str := collapseAux false s

/-- The normalisation step of `extractKeywords`:
`text.toLowerCase().replace(/[^\w\s.-]/g, ' ').replace(/\s+/g, ' ')`. -/
def normalizeText (text : Str) : Str := collapseWs ((jsToLower text).map keepChar)

/-- Worker for `.split(/\s+/)`: the flag records whether the previous
character was whitespace (a run of whitespace is a single separator),
`cur` is the current token accumulated in reverse. -/
def splitWsAux : Bool → Str → Str → List Str
  | _, cur, [] => [cur.reverse]
  | prevWs, cur, c :: rest =>
    if jsWhitespace c then
      if prevWs then splitWsAux true cur rest
      else cur.reverse :: splitWsAux true [] rest
    else splitWsAux false (c :: cur) rest

/-- Embedding of `.split(/\s+/)` (leading/trailing separators produce
empty tokens, exactly as in JavaScript). -/
def splitWs (s : Str) : List Str := splitWsAux false [] s

/-- The stop-word set of the source (`stopWords`), in source order. -/
def stopWords : List Str :=
  (["the", "and", "for", "with", "this", "that", "from", "will", "have", "has",
    "are", "was", "were", "been", "being", "but", "not", "can", "could", "should",
    "would", "may", "might", "must", "shall", "our", "your", "their", "its",
    "about", "into", "through", "during", "before", "after", "above", "below",
    "between", "under", "again", "further", "then", "once", "here", "there",
    "when", "where", "why", "how", "all", "both", "each", "few", "more", "most",
    "other", "some", "such", "only", "own", "same", "than", "too", "very",
    "work", "working", "experience", "years", "team", "company", "role", "position",
    "responsibilities", "requirements", "skills", "ability", "strong", "good",
    "excellent", "knowledge", "understanding", "including", "required", "preferred"
   ] : List String).map String.data

/-- The technical-term catalog of the source (`technicalTerms`), in source
order (JavaScript `Set` iteration order is insertion order). -/
def technicalTerms : List Str :=
  (["javascript", "python", "java", "typescript", "c++", "ruby", "php", "swift",
    "kotlin", "go", "rust", "scala", "r", "matlab", "perl", "shell", "bash",
    "react", "angular", "vue", "svelte", "html", "css", "sass", "less", "webpack",
    "nextjs", "gatsby", "tailwind", "bootstrap", "jquery", "redux", "mobx",
    "nodejs", "node.js", "express", "django", "flask", "spring", "laravel",
    "rails", "fastapi", "nestjs", "graphql", "rest", "api", "microservices",
    "sql", "mysql", "postgresql", "mongodb", "redis", "elasticsearch", "cassandra",
    "dynamodb", "oracle", "sqlite", "mariadb", "nosql", "firebase",
    "aws", "azure", "gcp", "docker", "kubernetes", "jenkins", "gitlab", "github",
    "terraform", "ansible", "ci/cd", "devops", "cloud", "serverless", "lambda",
    "tensorflow", "pytorch", "keras", "scikit-learn", "pandas", "numpy", "jupyter",
    "machine learning", "deep learning", "nlp", "computer vision", "data science",
    "git", "jira", "agile", "scrum", "kanban", "testing", "junit", "jest",
    "cypress", "selenium", "tdd", "bdd", "linux", "unix", "nginx", "apache",
    "leadership", "communication", "collaboration", "problem-solving", "analytical",
    "mentoring", "project management", "stakeholder management"
   ] : List String).map String.data

/-- The character class `[\d+#.-]` of the single-token filter: a digit or
one of `+`, `#`, `.`, `-`. -/
def hasDigitSpecial (c : Char) : Bool :=
  decide (48 ≤ c.toNat ∧ c.toNat ≤ 57) || c = '+' || c = '#' || c = '.' || c = '-'

/-- The single-token filter of `extractKeywords`: keep a token iff its
length exceeds 2, it is not a stop word, and it is a technical term or
contains a digit or one of `+ # . -`. -/
def tokenKept (w : Str) : Bool :=
  decide (w.length > 2) && !stopWords.contains w &&
    (technicalTerms.contains w || w.any hasDigitSpecial)

/-- Does `sub` occur at the start of `s`? (helper for `String.includes`). -/
def strStartsWith : Str → Str → Bool
  | _, [] => true
  | [], _ :: _ => false
  | c :: cs, d :: ds => c = d && strStartsWith cs ds

/-- Embedding of JavaScript `s.includes(sub)`: substring containment. -/
def strIncludes : Str → Str → Bool
  | [], sub => sub.isEmpty
  | c :: cs, sub => strStartsWith (c :: cs) sub || strIncludes cs sub

/-- The multi-word pass of `extractKeywords`: every catalog term that
contains a space and occurs as a substring of the normalised text, in
catalog order. -/
def multiWordTermsOf (nt : Str) : List Str :=
  technicalTerms.filter fun t => t.contains ' ' && strIncludes nt t

/-- The single-word pass of `extractKeywords`: whitespace-split tokens of
the normalised text surviving `tokenKept`. -/
def wordsOf (nt : Str) : List Str := (splitWs nt).filter tokenKept

/-- Embedding of `[...new Set(l)]`: deduplication keeping the first
occurrence of each element, in order. -/
def dedupAux (seen : List Str) : List Str → List Str
  | [] => []
  | x :: xs => if seen.contains x then dedupAux seen xs else x :: dedupAux (x :: seen) xs

/-- `allTerms` of `extractKeywords`: multi-word terms and surviving single
tokens, deduplicated (first occurrence wins). -/
def allTermsOf (nt : Str) : List Str := dedupAux [] (multiWordTermsOf nt ++ wordsOf nt)

/-- Does the pattern match a prefix of `s`?  `.` in the pattern is the
regex wildcard (terms are compiled with `new RegExp(term, 'gi')`); every
other character reachable here (`a-z`, digits, `_`, `-`, space) is
literal. -/
def patMatchAt : Str → Str → Bool
  | [], _ => true
  | _ :: _, [] => false
  | p :: ps, c :: cs => (p = '.' || p = c) && patMatchAt ps cs

/-- Worker counting non-overlapping leftmost matches: `skip` is the number
of characters still covered by the previous match. -/
def countAux (pat : Str) : Nat → Str → Nat
  | _, [] => 0
  | 0, c :: cs =>
    if patMatchAt pat (c :: cs) then 1 + countAux pat (pat.length - 1) cs
    else countAux pat 0 cs
  | Nat.succ k, _ :: cs => countAux pat k cs

/-- Embedding of `(text.match(new RegExp(term, 'gi')) || []).length`:
the number of non-overlapping leftmost matches of the term in the text. -/
def countMatches (pat : Str) (s : Str) : Nat := countAux pat 0 s

/-- The `termCount` entries: each candidate term with its occurrence
count, in candidate order.  JavaScript object keys iterate in insertion
order, which is the candidate order (`Object.entries` would move a
purely numeric token such as `2024` to the front; that corner only
permutes ties under the subsequent stable sort and is not modelled). -/
def termEntries (nt : Str) : List (Str × Nat) :=
  (allTermsOf nt).map fun t => (t, countMatches t nt)

/-- Stable insertion of an element that originally precedes the already
sorted elements: it goes before the first element `b` with `le a b`. -/
def stableInsert (le : α → α → Bool) (a : α) : List α → List α
  | [] => [a]
  | b :: bs => if le a b then a :: b :: bs else b :: stableInsert le a bs

/-- Stable sort by a boolean total preorder, modelling JavaScript's stable
`Array.prototype.sort`. -/
def stableSort (le : α → α → Bool) : List α → List α
  | [] => []
  | x :: xs => stableInsert le x (stableSort le xs)

/-- The sort comparator of `extractKeywords` as a `≤`-test: technical
terms come first; within a group, larger counts come first
(`cmp(a,b) = b.count - a.count ≤ 0`). -/
def keywordLe (a b : Str × Nat) : Bool :=
  let aT := technicalTerms.contains a.1
  let bT := technicalTerms.contains b.1
  if aT = bT then decide (b.2 ≤ a.2) else aT

/-- Embedding of the source's `extractKeywords`: normalise, collect
multi-word catalog terms and filtered single tokens, count occurrences,
sort technical-first then by descending count (stable), truncate to 30
and return the terms. -/
def extractKeywords (text : Str) : List Str :=
  ((stableSort keywordLe (termEntries (normalizeText text))).take 30).map Prod.fst

/-- `Math.round(mul * num / den)` for natural `num`, `den > 0`, computed
exactly: `⌊mul*num/den + 1/2⌋ = (2*mul*num + den) / (2*den)`. -/
def jsRound (mul num den : Nat) : Nat := (2 * mul * num + den) / (2 * den)

/-- `matchedSkills`: job-description keywords whose lowercase form is in
the set of lowercased resume keywords, in job-description order. -/
def matchedSkillsOf (rk jdk : List Str) : List Str :=
  jdk.filter fun k => (rk.map jsToLower).contains (jsToLower k)

/-- `missingKeywords` before the final report: job-description keywords
absent from the resume set whose lowercase form is a catalog term,
capped at 6. -/
def missingKeywordsOf (rk jdk : List Str) : List Str :=
  (jdk.filter fun k =>
    !(rk.map jsToLower).contains (jsToLower k) && technicalTerms.contains (jsToLower k)).take 6

/-- `technicalMatches`: matched skills whose lowercase form is a catalog
term. -/
def technicalMatchesOf (rk jdk : List Str) : List Str :=
  (matchedSkillsOf rk jdk).filter fun s => technicalTerms.contains (jsToLower s)

/-- `technicalRequirements`: job-description keywords whose lowercase form
is a catalog term. -/
def technicalRequirementsOf (jdk : List Str) : List Str :=
  jdk.filter fun k => technicalTerms.contains (jsToLower k)

/-- The match score: the technical ratio when technical requirements
exist, otherwise the 85-weighted fallback with denominator floored at 1;
finally capped at 95. -/
def matchScoreOf (rk jdk : List Str) : Nat :=
  min
    (if (technicalRequirementsOf jdk).length > 0 then
      jsRound 100 (technicalMatchesOf rk jdk).length (technicalRequirementsOf jdk).length
    else
      jsRound 85 (matchedSkillsOf rk jdk).length (max jdk.length 1))
    95

/-- `displaySkills`: the first 8 matched skills, or, when there is no
match, the first 5 resume keywords whose lowercase form is a catalog
term. -/
def displaySkillsOf (rk jdk : List Str) : List Str :=
  if (matchedSkillsOf rk jdk).length > 0 then (matchedSkillsOf rk jdk).take 8
  else (rk.filter fun k => technicalTerms.contains (jsToLower k)).take 5

/-- The four-bucket classification of the match score. -/
def matchLevelOf (matchScore : Nat) : String :=
  if matchScore ≥ 80 then "Strong Candidate Match"
  else if matchScore ≥ 60 then "Good Candidate Match"
  else if matchScore ≥ 40 then "Moderate Candidate Match"
  else "Potential Candidate Match"

/-- Outcome of the external Hugging Face summarisation call, as observed
by the surrounding code: the `fetch` threw, the response was not `ok`,
the JSON had no `data[0].summary_text`, or a summary string was
obtained. -/
inductive HFOutcome where
  | fetchError
  | notOk
  | okNoSummary
  | okSummary (s : Str)
deriving DecidableEq

/-- Worker for JavaScript `split('.')`: split at every `.`, keeping empty
fragments. -/
def splitOnDotAux (cur : Str) : Str → List Str
  | [] => [cur.reverse]
  | c :: rest =>
    if c = '.' then cur.reverse :: splitOnDotAux [] rest
    else splitOnDotAux (c :: cur) rest

/-- Embedding of `summary.split('.')`. -/
def splitOnDot (s : Str) : List Str := splitOnDotAux [] s

/-- Embedding of JavaScript `trim()` (ASCII whitespace model). -/
def jsTrim (s : Str) : Str :=
  ((s.dropWhile jsWhitespace).reverse.dropWhile jsWhitespace).reverse

/-- The static fallback improvement suggestions of the source. -/
def fallbackImprovements : List Str :=
  (["Add quantifiable metrics to your achievements (e.g., 'Increased performance by 40%', 'Led team of 5 developers')",
    "Include more technical keywords from the job description in your skills and experience sections",
    "Highlight projects or experiences that directly relate to the key responsibilities mentioned in the job description"
   ] : List String).map String.data

/-- The sentence fragments of a summary surviving the length filter:
fragments of `split('.')` whose trimmed length exceeds 10. -/
def survivorsOf (s : Str) : List Str :=
  (splitOnDot s).filter fun t => decide ((jsTrim t).length > 10)

/-- The improvement suggestions produced from the external call's
outcome: on a usable summary, the first 3 surviving fragments, trimmed,
with a period re-appended; in every other case the static fallback. -/
def improvementsOf : HFOutcome → List Str
  | .okSummary s =>
    let suggestions := (survivorsOf s).take 3
    if suggestions.length > 0 then suggestions.map (fun t => jsTrim t ++ ['.'])
    else fallbackImprovements
  | _ => fallbackImprovements

/-- The report object returned by `analyzeWithHuggingFace`. -/
structure Report where
  matchScore : Nat
  matchLevel : String
  positionTitle : Str
  company : Str
  missingKeywords : List Str
  skillsFound : List Str
  improvements : List Str
deriving DecidableEq

/-- Abstract syntax of the five field-extraction regexes.  Unbounded
quantifiers occur in the source only over single-character classes, so
the engine needs class quantifiers (`classStar`, `classPlus`,
`classRep`), literals, sequencing, ordered alternation, greedy option,
one capturing group, and the multiline `$` anchor; the bounded compound
repetition `{1,4}` of the third title rule is unrolled with `optR`. -/
inductive RE where
  | classOne (p : Char → Bool)
  | classStar (p : Char → Bool)
  | classPlus (p : Char → Bool)
  | classRep (p : Char → Bool) (lo hi : Nat)
  | litCI (l : Str)
  | seqR (a b : RE)
  | altR (a b : RE)
  | optR (r : RE)
  | groupR (r : RE)
  | lineEnd

/-- Length of the maximal prefix of `s` whose characters satisfy `p`. -/
def runLen (p : Char → Bool) : Str → Nat
  | [] => 0
  | c :: cs => if p c then runLen p cs + 1 else 0

/-- `n :: n-1 :: ... :: 0`. -/
def countdown : Nat → List Nat
  | 0 => [0]
  | n + 1 => (n + 1) :: countdown n

/-- Case-insensitive literal match at the front of `s` (the pattern `l`
is stored lowercase); returns the rest of `s` on success. -/
def litCIAt : Str → Str → Option Str
  | s, [] => some s
  | [], _ :: _ => none
  | c :: cs, d :: ds => if lowerChar c = d then litCIAt cs ds else none

/-- All ways a regex can match a prefix of `s`, as pairs of (remaining
suffix, capture of the group so far), in JavaScript backtracking priority
order: alternatives left to right, quantifiers greedy (longest first).
The head of the list is the match JavaScript commits to. -/
def reMatches : RE → Str → Option Str → List (Str × Option Str)
  | .classOne p, s, cap =>
    match s with
    | [] => []
    | c :: cs => if p c then [(cs, cap)] else []
  | .classStar p, s, cap => (countdown (runLen p s)).map fun k => (s.drop k, cap)
  | .classPlus p, s, cap =>
    ((countdown (runLen p s)).filter fun k => decide (1 ≤ k)).map fun k => (s.drop k, cap)
  | .classRep p lo hi, s, cap =>
    ((countdown (min (runLen p s) hi)).filter fun k => decide (lo ≤ k)).map
      fun k => (s.drop k, cap)
  | .litCI l, s, cap =>
    match litCIAt s l with
    | some s' => [(s', cap)]
    | none => []
  | .seqR a b, s, cap => (reMatches a s cap).flatMap fun x => reMatches b x.1 x.2
  | .altR a b, s, cap => reMatches a s cap ++ reMatches b s cap
  | .optR r, s, cap => reMatches r s cap ++ [(s, cap)]
  | .groupR r, s, cap =>
    (reMatches r s cap).map fun x => (x.1, some (s.take (s.length - x.1.length)))
  | .lineEnd, s, cap =>
    match s with
    | [] => [([], cap)]
    | c :: cs => if c = '\n' || c = '\r' then [(c :: cs, cap)] else []

/-- Scan a list of starting suffixes left to right; at the first suffix
where the regex matches, return the capture of the committed match
(`none` both when nothing matches anywhere and when the group did not
participate, which the caller treats alike, as does the source's
`match && match[1]` test). -/
def reFirstCap (r : RE) : List Str → Option Str
  | [] => none
  | t :: ts =>
    match reMatches r t none with
    | [] => reFirstCap r ts
    | x :: _ => x.2

/-- All suffixes of `s` in position order (every starting position of an
unanchored JavaScript regex search, including the end). -/
def allSuffixes : Str → List Str
  | [] => [[]]
  | c :: cs => (c :: cs) :: allSuffixes cs

/-- Embedding of `text.match(re)[1]` for an unanchored regex. -/
def scanPattern (r : RE) (s : Str) : Option Str := reFirstCap r (allSuffixes s)

/-- Suffixes starting just after each line terminator, in order. -/
def lineTailsAux : Str → List Str
  | [] => []
  | c :: cs => if c = '\n' || c = '\r' then cs :: lineTailsAux cs else lineTailsAux cs

/-- Starting positions of a `^`-anchored multiline regex: the start of
the text and every position after a line terminator. -/
def lineStartSuffixes (s : Str) : List Str := s :: lineTailsAux s

/-- Embedding of `text.match(re)[1]` for the `^...$` multiline regex. -/
def scanPatternM (r : RE) (s : Str) : Option Str := reFirstCap r (lineStartSuffixes s)

/-- The class `[^\n,.]`. -/
def ccNotTermSep (c : Char) : Bool := !(c = '\n' || c = ',' || c = '.')

/-- The class `[A-Z]`. -/
def ccUpper (c : Char) : Bool := decide (65 ≤ c.toNat ∧ c.toNat ≤ 90)

/-- The class `[a-z]`. -/
def ccLower (c : Char) : Bool := decide (97 ≤ c.toNat ∧ c.toNat ≤ 122)

/-- Title rule 1: `/(?:position|role|title|job):\s*([^\n,.]+)/i`. -/
def titleP1 : RE :=
  .seqR (.altR (.litCI ("position").data) (.altR (.litCI ("role").data)
      (.altR (.litCI ("title").data) (.litCI ("job").data))))
    (.seqR (.litCI (":").data)
      (.seqR (.classStar jsWhitespace) (.groupR (.classPlus ccNotTermSep))))

/-- Title rule 2:
`/(?:hiring|seeking|looking for)\s+(?:a|an)?\s*([^\n,.]{10,50})/i`. -/
def titleP2 : RE :=
  .seqR (.altR (.litCI ("hiring").data) (.altR (.litCI ("seeking").data)
      (.litCI ("looking for").data)))
    (.seqR (.classPlus jsWhitespace)
      (.seqR (.optR (.altR (.litCI ("a").data) (.litCI ("an").data)))
        (.seqR (.classStar jsWhitespace) (.groupR (.classRep ccNotTermSep 10 50)))))

/-- `[A-Z][a-z]+`. -/
def titleWord : RE := .seqR (.classOne ccUpper) (.classPlus ccLower)

/-- `\s+[A-Z][a-z]+`. -/
def titleMore : RE := .seqR (.classPlus jsWhitespace) titleWord

/-- Title rule 3: `/^([A-Z][a-z]+(?:\s+[A-Z][a-z]+){1,4})\s*$/m`
(the `{1,4}` unrolled as one required and three optional greedy
repetitions). -/
def titleP3 : RE :=
  .seqR
    (.groupR (.seqR titleWord
      (.seqR titleMore
        (.optR (.seqR titleMore (.optR (.seqR titleMore (.optR titleMore))))))))
    (.seqR (.classStar jsWhitespace) .lineEnd)

/-- Company rule 1: `/(?:company|at|employer):\s*([^\n,.]+)/i`. -/
def companyP1 : RE :=
  .seqR (.altR (.litCI ("company").data) (.altR (.litCI ("at").data)
      (.litCI ("employer").data)))
    (.seqR (.litCI (":").data)
      (.seqR (.classStar jsWhitespace) (.groupR (.classPlus ccNotTermSep))))

/-- Company rule 2: `/(?:join|work at|careers at)\s+([^\n,.]{2,30})/i`. -/
def companyP2 : RE :=
  .seqR (.altR (.litCI ("join").data) (.altR (.litCI ("work at").data)
      (.litCI ("careers at").data)))
    (.seqR (.classPlus jsWhitespace) (.groupR (.classRep ccNotTermSep 2 30)))

/-- The ordered title-rule captures (`jobDescription.match(pattern)` for
each pattern, in source order). -/
def titleCaptures (jd : Str) : List (Option Str) :=
  [scanPattern titleP1 jd, scanPattern titleP2 jd, scanPatternM titleP3 jd]

/-- The ordered company-rule captures. -/
def companyCaptures (jd : Str) : List (Option Str) :=
  [scanPattern companyP1 jd, scanPattern companyP2 jd]

/-- First capture that is present and non-empty (the source's
`if (match && match[1])` accepts exactly those), scanning the rules in
order. -/
def firstGoodCapture : List (Option Str) → Option Str
  | [] => none
  | o :: rest =>
    match o with
    | some c => if c ≠ [] then some c else firstGoodCapture rest
    | none => firstGoodCapture rest

/-- `positionTitle`: the trimmed capture of the first matching title
rule, or the literal placeholder. -/
def extractTitle (jd : Str) : Str :=
  match firstGoodCapture (titleCaptures jd) with
  | some c => jsTrim c
  | none => ("Target Position").data

/-- `company`: the trimmed capture of the first matching company rule, or
the literal placeholder. -/
def extractCompany (jd : Str) : Str :=
  match firstGoodCapture (companyCaptures jd) with
  | some c => jsTrim c
  | none => ("Target Company").data

/-- Embedding of `analyzeWithHuggingFace` of the main implementation
(`src/unnamed/part_000`): the report assembled from the scorer on the two
extracted keyword lists, the field extractor on the raw job description,
and the suggestion provider on the external call's outcome. -/
def analyzeWithHuggingFace (resumeText jobDescription : Str) (hf : HFOutcome) : Report :=
  let resumeKeywords := extractKeywords resumeText
  let jdKeywords := extractKeywords jobDescription
  { matchScore := matchScoreOf resumeKeywords jdKeywords
    matchLevel := matchLevelOf (matchScoreOf resumeKeywords jdKeywords)
    positionTitle := extractTitle jobDescription
    company := extractCompany jobDescription
    missingKeywords := (missingKeywordsOf resumeKeywords jdKeywords).take 5
    skillsFound := displaySkillsOf resumeKeywords jdKeywords
    improvements := improvementsOf hf }

/-- One step of `server.js`'s `.replace(/[^\w\s]/g, ' ')` (the legacy
extractor keeps only word characters and whitespace). -/
def serverKeepChar (c : Char) : Char :=
  if isWordChar c || jsWhitespace c then c else ' '

/-- `server.js`'s `extractKeywords` word list:
`text.toLowerCase().replace(/[^\w\s]/g,' ').split(/\s+/).filter(w => w.length > 3)`. -/
def serverWords (text : Str) : List Str :=
  (splitWs ((jsToLower text).map serverKeepChar)).filter fun w => decide (w.length > 3)

/-- `server.js`'s `wordCount` entries: each distinct word (first-occurrence
order) with its number of occurrences in the word list. -/
def serverEntries (ws : List Str) : List (Str × Nat) :=
  (dedupAux [] ws).map fun w => (w, ws.count w)

/-- `server.js`'s legacy `extractKeywords`: count words longer than 3,
sort by descending count (stable), keep the first 20. -/
def serverExtractKeywords (text : Str) : List Str :=
  ((stableSort (fun a b => decide (b.2 ≤ a.2)) (serverEntries (serverWords text))).take 20).map
    Prod.fst

/-- `server.js`'s `matchedSkills`: resume keywords included in the
job-description keywords, capped at 6. -/
def serverMatchedSkills (rk jdk : List Str) : List Str :=
  (rk.filter fun s => jdk.contains s).take 6

/-- `Math.round(q)` on an exact rational: `⌊q + 1/2⌋`. -/
def jsRoundQ (q : ℚ) : ℤ := ⌊q + 1 / 2⌋

/-- `server.js`'s match score.  `rand10` is the value of the
`Math.random() * 10` term, a sample in `[0, 10)`:
`Math.min(Math.round((matched/max(n,1))*100 + Math.random()*10), 95)`. -/
def serverMatchScore (rk jdk : List Str) (rand10 : ℚ) : ℤ :=
  min (jsRoundQ (((serverMatchedSkills rk jdk).length : ℚ) /
      (max jdk.length 1 : ℚ) * 100 + rand10)) 95

/-- Claim-side (spec-worded) reading of `technicalMatches`: the subset of
matched skills that are members of the technical-term catalog. -/
def specTechnicalMatches (rk jdk : List Str) : List Str :=
  (matchedSkillsOf rk jdk).filter fun s => technicalTerms.contains s

/-- Claim-side (spec-worded) reading of `technicalRequirements`: the
subset of job-description keywords that are members of the technical-term
catalog. -/
def specTechnicalRequirements (jdk : List Str) : List Str :=
  jdk.filter fun k => technicalTerms.contains k

/-- Equality of all report fields except `improvements`. -/
def reportCoreEq (a b : Report) : Prop :=
  a.matchScore = b.matchScore ∧ a.matchLevel = b.matchLevel ∧
    a.positionTitle = b.positionTitle ∧ a.company = b.company ∧
    a.missingKeywords = b.missingKeywords ∧ a.skillsFound = b.skillsFound

/-- Claim-side character class `[a-z0-9 .+#-]` (codes: `a`-`z` 97-122,
`0`-`9` 48-57), as asserted by the specification for the output of the
normalisation step. -/
def specNormalizeClass (c : Char) : Bool :=
  decide ((97 ≤ c.toNat ∧ c.toNat ≤ 122) ∨ (48 ≤ c.toNat ∧ c.toNat ≤ 57) ∨
    c = ' ' ∨ c = '.' ∨ c = '+' ∨ c = '#' ∨ c = '-')

/-- The character class the implementation actually retains after
lowercasing: `[a-z0-9_ .-]` (the regex keeps `\w`, which includes `_`,
and drops `+` and `#`), together with the space that replaces everything
else. -/
def keptCharClass (c : Char) : Bool :=
  decide ((97 ≤ c.toNat ∧ c.toNat ≤ 122) ∨ (48 ≤ c.toNat ∧ c.toNat ≤ 57) ∨
    c = '_' ∨ c = '.' ∨ c = '-' ∨ c = ' ')

/-- No two consecutive characters are both whitespace. -/
def noDoubleWs : Str → Bool
  | [] => true
  | [_] => true
  | c :: d :: rest => !(jsWhitespace c && jsWhitespace d) && noDoubleWs (d :: rest)

theorem analyze_matchScore (r j : Str) (hf : HFOutcome) :
    (analyzeWithHuggingFace r j hf).matchScore =
      matchScoreOf (extractKeywords r) (extractKeywords j) := by
  simp only [analyzeWithHuggingFace]

theorem analyze_matchLevel (r j : Str) (hf : HFOutcome) :
    (analyzeWithHuggingFace r j hf).matchLevel =
      matchLevelOf (matchScoreOf (extractKeywords r) (extractKeywords j)) := by
  simp only [analyzeWithHuggingFace]

theorem analyze_positionTitle (r j : Str) (hf : HFOutcome) :
    (analyzeWithHuggingFace r j hf).positionTitle = extractTitle j := by
  simp only [analyzeWithHuggingFace]

theorem analyze_company (r j : Str) (hf : HFOutcome) :
    (analyzeWithHuggingFace r j hf).company = extractCompany j := by
  simp only [analyzeWithHuggingFace]

theorem analyze_missingKeywords (r j : Str) (hf : HFOutcome) :
    (analyzeWithHuggingFace r j hf).missingKeywords =
      (missingKeywordsOf (extractKeywords r) (extractKeywords j)).take 5 := by
  simp only [analyzeWithHuggingFace]

theorem analyze_skillsFound (r j : Str) (hf : HFOutcome) :
    (analyzeWithHuggingFace r j hf).skillsFound =
      displaySkillsOf (extractKeywords r) (extractKeywords j) := by
  simp only [analyzeWithHuggingFace]

theorem analyze_improvements (r j : Str) (hf : HFOutcome) :
    (analyzeWithHuggingFace r j hf).improvements = improvementsOf hf := by
  simp only [analyzeWithHuggingFace]

theorem lowerChar_spec (c : Char) :
    (65 ≤ c.toNat ∧ c.toNat ≤ 90 ∧ (lowerChar c).toNat = c.toNat + 32) ∨
      (¬(65 ≤ c.toNat ∧ c.toNat ≤ 90) ∧ lowerChar c = c) := by
  by_cases h : 65 ≤ c.toNat ∧ c.toNat ≤ 90
  · left
    refine ⟨h.1, h.2, ?_⟩
    rw [lowerChar, if_pos h]
    obtain ⟨h1, h2⟩ := h
    generalize hn : c.toNat = n at h1 h2
    interval_cases n <;> decide
  · right
    exact ⟨h, by rw [lowerChar, if_neg h]⟩

theorem lowerChar_idem (c : Char) : lowerChar (lowerChar c) = lowerChar c := by
  rcases lowerChar_spec c with ⟨_, _, h3⟩ | ⟨_, h2⟩
  · rcases lowerChar_spec (lowerChar c) with ⟨_, h5, _⟩ | ⟨_, h5⟩
    · omega
    · exact h5
  · rw [h2]
    exact h2

theorem map_eq_self_of_fixed {f : α → α} {l : List α} (h : ∀ a ∈ l, f a = a) :
    l.map f = l := by
  induction l with
  | nil => rfl
  | cons x xs ih =>
    simp only [List.map_cons, h x (List.mem_cons_self x xs)]
    rw [ih fun a ha => h a (List.mem_cons_of_mem x ha)]

theorem lowerChar_fixed_of_mem_jsToLower {c : Char} {s : Str} (h : c ∈ jsToLower s) :
    lowerChar c = c := by
  obtain ⟨d, _, rfl⟩ := List.mem_map.mp h
  exact lowerChar_idem d

theorem lowerChar_keepChar_fixed {d : Char} (h : lowerChar d = d) :
    lowerChar (keepChar d) = keepChar d := by
  rw [keepChar]
  split
  · exact h
  · decide

theorem mem_collapseAux {c : Char} : ∀ {b : Bool} {s : Str}, c ∈ collapseAux b s →
    c = ' ' ∨ (c ∈ s ∧ jsWhitespace c = false) := by
  intro b s
  induction s generalizing b with
  | nil => intro h; simp [collapseAux] at h
  | cons d rest ih =>
    intro h
    rw [collapseAux] at h
    split at h
    · split at h
      · rcases ih h with h1 | ⟨h1, h2⟩
        · exact Or.inl h1
        · exact Or.inr ⟨List.mem_cons_of_mem d h1, h2⟩
      · rcases List.mem_cons.mp h with hc | hc
        · exact Or.inl hc
        · rcases ih hc with h1 | ⟨h1, h2⟩
          · exact Or.inl h1
          · exact Or.inr ⟨List.mem_cons_of_mem d h1, h2⟩
    · rename_i hw
      rcases List.mem_cons.mp h with hc | hc
      · subst hc
        exact Or.inr ⟨List.mem_cons_self c rest, by simpa using hw⟩
      · rcases ih hc with h1 | ⟨h1, h2⟩
        · exact Or.inl h1
        · exact Or.inr ⟨List.mem_cons_of_mem d h1, h2⟩

theorem lowerChar_fixed_of_mem_normalizeText {c : Char} {s : Str}
    (h : c ∈ normalizeText s) : lowerChar c = c := by
  rcases mem_collapseAux h with h1 | ⟨h1, _⟩
  · subst h1; decide
  · obtain ⟨d, hd, rfl⟩ := List.mem_map.mp h1
    exact lowerChar_keepChar_fixed (lowerChar_fixed_of_mem_jsToLower hd)

theorem mem_splitWsAux_chars {t : Str} {c : Char} :
    ∀ {b : Bool} {cur s : Str}, t ∈ splitWsAux b cur s → c ∈ t → c ∈ cur ∨ c ∈ s := by
  intro b cur s
  induction s generalizing b cur with
  | nil =>
    intro ht hc
    rw [splitWsAux] at ht
    rcases List.mem_singleton.mp ht with rfl
    exact Or.inl (List.mem_reverse.mp hc)
  | cons d rest ih =>
    intro ht hc
    rw [splitWsAux] at ht
    split at ht
    · split at ht
      · rcases ih ht hc with h1 | h1
        · exact Or.inl h1
        · exact Or.inr (List.mem_cons_of_mem d h1)
      · rcases List.mem_cons.mp ht with h1 | h1
        · subst h1
          exact Or.inl (List.mem_reverse.mp hc)
        · rcases ih h1 hc with h2 | h2
          · simp at h2
          · exact Or.inr (List.mem_cons_of_mem d h2)
    · rcases ih ht hc with h1 | h1
      · rcases List.mem_cons.mp h1 with h2 | h2
        · exact Or.inr (h2 ▸ List.mem_cons_self d rest)
        · exact Or.inl h2
      · exact Or.inr (List.mem_cons_of_mem d h1)

theorem mem_splitWs_chars {t : Str} {s : Str} {c : Char}
    (ht : t ∈ splitWs s) (hc : c ∈ t) : c ∈ s := by
  rcases mem_splitWsAux_chars ht hc with h | h
  · simp at h
  · exact h

theorem no_ws_of_mem_splitWsAux {t : Str} :
    ∀ {b : Bool} {cur s : Str}, (∀ c ∈ cur, jsWhitespace c = false) →
      t ∈ splitWsAux b cur s → ∀ c ∈ t, jsWhitespace c = false := by
  intro b cur s
  induction s generalizing b cur with
  | nil =>
    intro hcur ht c hc
    rw [splitWsAux] at ht
    rcases List.mem_singleton.mp ht with rfl
    exact hcur c (List.mem_reverse.mp hc)
  | cons d rest ih =>
    intro hcur ht c hc
    rw [splitWsAux] at ht
    split at ht
    · split at ht
      · exact ih hcur ht c hc
      · rcases List.mem_cons.mp ht with h1 | h1
        · subst h1
          exact hcur c (List.mem_reverse.mp hc)
        · exact ih (by intro x hx; simp at hx) h1 c hc
    · rename_i hw
      refine ih ?_ ht c hc
      intro x hx
      rcases List.mem_cons.mp hx with h1 | h1
      · subst h1; simpa using hw
      · exact hcur x h1

theorem mem_dedupAux {x : Str} : ∀ {seen l : List Str},
    x ∈ dedupAux seen l ↔ x ∈ l ∧ x ∉ seen := by
  intro seen l
  induction l generalizing seen with
  | nil => simp [dedupAux]
  | cons y ys ih =>
    rw [dedupAux]
    split
    · rename_i hy
      have hy2 : y ∈ seen := List.elem_iff.mp hy
      rw [ih]
      constructor
      · rintro ⟨h1, h2⟩
        exact ⟨List.mem_cons_of_mem y h1, h2⟩
      · rintro ⟨h1, h2⟩
        rcases List.mem_cons.mp h1 with rfl | h3
        · exact absurd hy2 h2
        · exact ⟨h3, h2⟩
    · rename_i hy
      have hy2 : y ∉ seen := fun h => hy (List.elem_iff.mpr h)
      simp only [List.mem_cons, ih]
      constructor
      · rintro (rfl | ⟨h2, h3⟩)
        · exact ⟨Or.inl rfl, hy2⟩
        · exact ⟨Or.inr h2, fun hx => h3 (Or.inr hx)⟩
      · rintro ⟨h1, h2⟩
        rcases h1 with rfl | h3
        · exact Or.inl rfl
        · by_cases hxy : x = y
          · exact Or.inl hxy
          · exact Or.inr ⟨h3, fun hd => hd.elim hxy h2⟩

theorem mem_stableInsert {le : α → α → Bool} {a x : α} : ∀ {l : List α},
    x ∈ stableInsert le a l ↔ x = a ∨ x ∈ l := by
  intro l
  induction l with
  | nil => simp [stableInsert]
  | cons b bs ih =>
    rw [stableInsert]
    split
    · simp [List.mem_cons]
    · simp only [List.mem_cons, ih]
      tauto

theorem mem_stableSort {le : α → α → Bool} {x : α} : ∀ {l : List α},
    x ∈ stableSort le l ↔ x ∈ l := by
  intro l
  induction l with
  | nil => simp [stableSort]
  | cons b bs ih =>
    rw [stableSort, mem_stableInsert, ih]
    simp [List.mem_cons]

theorem technicalTerms_lower_fixed : ∀ t ∈ technicalTerms, jsToLower t = t := by decide

theorem mem_allTermsOf {t : Str} {nt : Str} (h : t ∈ allTermsOf nt) :
    t ∈ multiWordTermsOf nt ∨ t ∈ wordsOf nt := by
  rw [allTermsOf] at h
  exact List.mem_append.mp (mem_dedupAux.mp h).1

theorem mem_extractKeywords_allTerms {t : Str} {text : Str}
    (h : t ∈ extractKeywords text) : t ∈ allTermsOf (normalizeText text) := by
  rw [extractKeywords] at h
  obtain ⟨⟨t', n⟩, hmem, rfl⟩ := List.mem_map.mp h
  have h2 : (t', n) ∈ stableSort keywordLe (termEntries (normalizeText text)) :=
    List.mem_of_mem_take hmem
  have h3 : (t', n) ∈ termEntries (normalizeText text) := mem_stableSort.mp h2
  rw [termEntries] at h3
  obtain ⟨u, hu, he⟩ := List.mem_map.mp h3
  cases he
  exact hu

theorem jsToLower_fixed_of_mem_extractKeywords {t : Str} {text : Str}
    (h : t ∈ extractKeywords text) : jsToLower t = t := by
  rcases mem_allTermsOf (mem_extractKeywords_allTerms h) with h1 | h1
  · exact technicalTerms_lower_fixed t (List.mem_of_mem_filter h1)
  · rw [wordsOf] at h1
    have h2 : t ∈ splitWs (normalizeText text) := List.mem_of_mem_filter h1
    refine map_eq_self_of_fixed fun c hc => ?_
    exact lowerChar_fixed_of_mem_normalizeText (mem_splitWs_chars h2 hc)

theorem technicalRequirements_eq_spec {j : Str} :
    technicalRequirementsOf (extractKeywords j) =
      specTechnicalRequirements (extractKeywords j) := by
  apply List.filter_congr
  intro k hk
  rw [jsToLower_fixed_of_mem_extractKeywords hk]

theorem technicalMatches_eq_spec {r j : Str} :
    technicalMatchesOf (extractKeywords r) (extractKeywords j) =
      specTechnicalMatches (extractKeywords r) (extractKeywords j) := by
  apply List.filter_congr
  intro k hk
  rw [matchedSkillsOf] at hk
  rw [jsToLower_fixed_of_mem_extractKeywords (List.mem_of_mem_filter hk)]

/-- C1: whenever the extracted job-description keyword list contains at
least one catalog term, the returned `matchScore` is
`min(round(100 * |technicalMatches| / |technicalRequirements|), 95)`,
where both quantities are the catalog-member subsets of the matched
skills and of the job-description keywords; in particular the score
never exceeds 95. -/
theorem C1_matchScore_technical (resumeText jobDescription : Str) (hf : HFOutcome)
    (h : ∃ t ∈ extractKeywords jobDescription, t ∈ technicalTerms) :
    (analyzeWithHuggingFace resumeText jobDescription hf).matchScore =
      min (jsRound 100
        (specTechnicalMatches (extractKeywords resumeText)
          (extractKeywords jobDescription)).length
        (specTechnicalRequirements (extractKeywords jobDescription)).length) 95 ∧
    (analyzeWithHuggingFace resumeText jobDescription hf).matchScore ≤ 95 := by
  obtain ⟨t, ht, htc⟩ := h
  have hfix : jsToLower t = t := jsToLower_fixed_of_mem_extractKeywords ht
  have hmem : t ∈ technicalRequirementsOf (extractKeywords jobDescription) := by
    rw [technicalRequirementsOf]
    refine List.mem_filter.mpr ⟨ht, ?_⟩
    rw [hfix]
    exact List.elem_iff.mpr htc
  have hpos : (technicalRequirementsOf (extractKeywords jobDescription)).length > 0 :=
    List.length_pos.mpr (List.ne_nil_of_mem hmem)
  constructor
  · show matchScoreOf _ _ = _
    rw [matchScoreOf, if_pos hpos, technicalRequirements_eq_spec, technicalMatches_eq_spec]
  · exact Nat.min_le_right _ _

/-- Witness for C1 at a concrete resume/job-description pair whose
job-description keywords contain the catalog term `python`. -/
theorem C1_matchScore_technical_witness :
    (∃ t ∈ extractKeywords ("python developer").data, t ∈ technicalTerms) ∧
    ((analyzeWithHuggingFace ("python").data ("python developer").data .fetchError).matchScore =
      min (jsRound 100
        (specTechnicalMatches (extractKeywords ("python").data)
          (extractKeywords ("python developer").data)).length
        (specTechnicalRequirements (extractKeywords ("python developer").data)).length) 95 ∧
    (analyzeWithHuggingFace ("python").data ("python developer").data .fetchError).matchScore ≤ 95) :=
  ⟨by decide, C1_matchScore_technical ("python").data ("python developer").data .fetchError (by decide)⟩

/-- C4: when no extracted job-description keyword is a catalog term
(including an empty keyword list), the score is the 85-weighted fallback
`round(85 * |matchedSkills| / max(|jdKeywords|, 1))` — the uncapped
formula, since it can never exceed 85 — and the denominator is at least
1, so no division by zero occurs. -/
theorem C4_matchScore_fallback (resumeText jobDescription : Str) (hf : HFOutcome)
    (h : ∀ t ∈ extractKeywords jobDescription, t ∉ technicalTerms) :
    (analyzeWithHuggingFace resumeText jobDescription hf).matchScore =
      jsRound 85
        (matchedSkillsOf (extractKeywords resumeText) (extractKeywords jobDescription)).length
        (max (extractKeywords jobDescription).length 1) ∧
    0 < max (extractKeywords jobDescription).length 1 := by
  have hnil : technicalRequirementsOf (extractKeywords jobDescription) = [] := by
    rw [technicalRequirementsOf, List.filter_eq_nil_iff]
    intro k hk
    rw [jsToLower_fixed_of_mem_extractKeywords hk]
    exact fun hc => h k hk (List.elem_iff.mp hc)
  have hm : (matchedSkillsOf (extractKeywords resumeText)
      (extractKeywords jobDescription)).length ≤ (extractKeywords jobDescription).length := by
    rw [matchedSkillsOf]
    exact List.length_filter_le _ _
  have hd : 0 < max (extractKeywords jobDescription).length 1 :=
    Nat.lt_of_lt_of_le Nat.one_pos (Nat.le_max_right _ 1)
  have hdm : (matchedSkillsOf (extractKeywords resumeText)
        (extractKeywords jobDescription)).length ≤
      max (extractKeywords jobDescription).length 1 :=
    le_trans hm (Nat.le_max_left _ 1)
  refine ⟨?_, hd⟩
  show matchScoreOf _ _ = _
  rw [matchScoreOf, hnil]
  simp only [List.length_nil, gt_iff_lt, Nat.lt_irrefl, if_false]
  refine Nat.min_eq_left ?_
  rw [jsRound]
  have h96 : 2 * 85 *
        (matchedSkillsOf (extractKeywords resumeText) (extractKeywords jobDescription)).length +
        max (extractKeywords jobDescription).length 1 <
      96 * (2 * max (extractKeywords jobDescription).length 1) := by omega
  exact Nat.lt_succ_iff.mp ((Nat.div_lt_iff_lt_mul (by omega)).mpr h96)

/-- Witness for C4 at a concrete pair whose job-description keywords
(`qqq9`) are not catalog terms. -/
theorem C4_matchScore_fallback_witness :
    (∀ t ∈ extractKeywords ("qqq9").data, t ∉ technicalTerms) ∧
    ((analyzeWithHuggingFace ("qqq9").data ("qqq9").data .fetchError).matchScore =
      jsRound 85
        (matchedSkillsOf (extractKeywords ("qqq9").data) (extractKeywords ("qqq9").data)).length
        (max (extractKeywords ("qqq9").data).length 1) ∧
    0 < max (extractKeywords ("qqq9").data).length 1) :=
  ⟨by decide, C4_matchScore_fallback ("qqq9").data ("qqq9").data .fetchError (by decide)⟩

theorem matchLevelOf_buckets (n : Nat) :
    (80 ≤ n → matchLevelOf n = "Strong Candidate Match") ∧
    (60 ≤ n → n < 80 → matchLevelOf n = "Good Candidate Match") ∧
    (40 ≤ n → n < 60 → matchLevelOf n = "Moderate Candidate Match") ∧
    (n < 40 → matchLevelOf n = "Potential Candidate Match") := by
  rw [matchLevelOf]
  refine ⟨fun h1 => ?_, fun h1 h2 => ?_, fun h1 h2 => ?_, fun h1 => ?_⟩ <;>
    split_ifs <;> first | rfl | omega

/-- C5: the reported `matchLevel` is exactly the four-bucket
classification of the reported `matchScore`: `Strong` at 80 and above,
`Good` on `[60, 80)`, `Moderate` on `[40, 60)`, `Potential` below 40. -/
theorem C5_matchLevel_buckets (resumeText jobDescription : Str) (hf : HFOutcome) :
    (80 ≤ (analyzeWithHuggingFace resumeText jobDescription hf).matchScore →
      (analyzeWithHuggingFace resumeText jobDescription hf).matchLevel =
        "Strong Candidate Match") ∧
    (60 ≤ (analyzeWithHuggingFace resumeText jobDescription hf).matchScore →
      (analyzeWithHuggingFace resumeText jobDescription hf).matchScore < 80 →
      (analyzeWithHuggingFace resumeText jobDescription hf).matchLevel =
        "Good Candidate Match") ∧
    (40 ≤ (analyzeWithHuggingFace resumeText jobDescription hf).matchScore →
      (analyzeWithHuggingFace resumeText jobDescription hf).matchScore < 60 →
      (analyzeWithHuggingFace resumeText jobDescription hf).matchLevel =
        "Moderate Candidate Match") ∧
    ((analyzeWithHuggingFace resumeText jobDescription hf).matchScore < 40 →
      (analyzeWithHuggingFace resumeText jobDescription hf).matchLevel =
        "Potential Candidate Match") := by
  rw [analyze_matchLevel, analyze_matchScore]
  exact matchLevelOf_buckets
    (matchScoreOf (extractKeywords resumeText) (extractKeywords jobDescription))

/-- Witness for C5: an empty resume against a technical job description
scores 0, which the classifier places in the `Potential` bucket. -/
theorem C5_matchLevel_buckets_witness :
    (analyzeWithHuggingFace [] ("python").data .fetchError).matchScore < 40 ∧
    (analyzeWithHuggingFace [] ("python").data .fetchError).matchLevel =
      "Potential Candidate Match" :=
  ⟨by decide, (C5_matchLevel_buckets [] ("python").data .fetchError).2.2.2 (by decide)⟩

theorem resumeTechFilter_eq_spec {r : Str} :
    ((extractKeywords r).filter fun k => technicalTerms.contains (jsToLower k)) =
      (extractKeywords r).filter fun k => technicalTerms.contains k := by
  apply List.filter_congr
  intro k hk
  rw [jsToLower_fixed_of_mem_extractKeywords hk]

/-- C7: `skillsFound` is the first 8 matched skills when any skill
matched; otherwise it is the first 5 resume keywords that are members of
the technical-term catalog, and hence empty when the resume has no
recognised technical keyword. -/
theorem C7_skillsFound (resumeText jobDescription : Str) (hf : HFOutcome) :
    (matchedSkillsOf (extractKeywords resumeText) (extractKeywords jobDescription) ≠ [] →
      (analyzeWithHuggingFace resumeText jobDescription hf).skillsFound =
        (matchedSkillsOf (extractKeywords resumeText) (extractKeywords jobDescription)).take 8) ∧
    (matchedSkillsOf (extractKeywords resumeText) (extractKeywords jobDescription) = [] →
      (analyzeWithHuggingFace resumeText jobDescription hf).skillsFound =
        ((extractKeywords resumeText).filter fun k => technicalTerms.contains k).take 5) ∧
    (matchedSkillsOf (extractKeywords resumeText) (extractKeywords jobDescription) = [] →
      ((extractKeywords resumeText).filter fun k => technicalTerms.contains k) = [] →
      (analyzeWithHuggingFace resumeText jobDescription hf).skillsFound = []) := by
  rw [analyze_skillsFound]
  refine ⟨fun h1 => ?_, fun h1 => ?_, fun h1 h2 => ?_⟩
  · rw [displaySkillsOf, if_pos (List.length_pos.mpr h1)]
  · rw [displaySkillsOf, if_neg (by rw [h1]; simp), resumeTechFilter_eq_spec]
  · rw [displaySkillsOf, if_neg (by rw [h1]; simp), resumeTechFilter_eq_spec, h2]
    rfl

/-- Witness for C7 at a concrete pair with a non-empty matched-skill
list. -/
theorem C7_skillsFound_witness :
    matchedSkillsOf (extractKeywords ("python").data) (extractKeywords ("python developer").data)
      ≠ [] ∧
    (analyzeWithHuggingFace ("python").data ("python developer").data .fetchError).skillsFound =
      (matchedSkillsOf (extractKeywords ("python").data)
        (extractKeywords ("python developer").data)).take 8 :=
  ⟨by decide, (C7_skillsFound ("python").data ("python developer").data .fetchError).1 (by decide)⟩

/-- C3: the reported `missingKeywords` contain no term whose lowercase
form occurs (case-insensitively) among the resume keywords, every
element is a member of the technical-term catalog, the sequence is a
sublist of the job-description keyword list (it preserves
job-description ranking order), and — after the cap at 6 and the second
cap at 5 — its length is at most 5. -/
theorem C3_missingKeywords (resumeText jobDescription : Str) (hf : HFOutcome) :
    (∀ t ∈ (analyzeWithHuggingFace resumeText jobDescription hf).missingKeywords,
      ¬ ∃ u ∈ extractKeywords resumeText, jsToLower u = jsToLower t) ∧
    (∀ t ∈ (analyzeWithHuggingFace resumeText jobDescription hf).missingKeywords,
      t ∈ technicalTerms) ∧
    List.Sublist (analyzeWithHuggingFace resumeText jobDescription hf).missingKeywords
      (extractKeywords jobDescription) ∧
    (analyzeWithHuggingFace resumeText jobDescription hf).missingKeywords.length ≤ 5 := by
  rw [analyze_missingKeywords]
  have hfilter : ∀ t ∈ (missingKeywordsOf (extractKeywords resumeText)
      (extractKeywords jobDescription)).take 5,
      t ∈ extractKeywords jobDescription ∧
        ((extractKeywords resumeText).map jsToLower).contains (jsToLower t) = false ∧
        technicalTerms.contains (jsToLower t) = true := by
    intro t ht
    have h1 := List.mem_of_mem_take ht
    rw [missingKeywordsOf] at h1
    have h2 := List.mem_of_mem_take h1
    have h3 := List.mem_filter.mp h2
    obtain ⟨h4, h5⟩ := h3
    rw [Bool.and_eq_true, Bool.not_eq_true'] at h5
    exact ⟨h4, h5.1, h5.2⟩
  refine ⟨?_, ?_, ?_, ?_⟩
  · intro t ht hex
    obtain ⟨u, hu, he⟩ := hex
    have h5 := (hfilter t ht).2.1
    have hm : jsToLower t ∈ (extractKeywords resumeText).map jsToLower :=
      List.mem_map.mpr ⟨u, hu, he⟩
    have h7 : ((extractKeywords resumeText).map jsToLower).contains (jsToLower t) = true :=
      List.elem_iff.mpr hm
    rw [h7] at h5
    cases h5
  · intro t ht
    obtain ⟨h4, _, h6⟩ := hfilter t ht
    rw [jsToLower_fixed_of_mem_extractKeywords h4] at h6
    exact List.elem_iff.mp h6
  · rw [missingKeywordsOf]
    exact ((List.take_sublist _ _).trans (List.take_sublist _ _)).trans
      (List.filter_sublist _)
  · exact List.length_take_le 5 _

/-- Witness for C3: a Java resume against a Python/Kubernetes job
description; `python` is reported missing and is a catalog member. -/
theorem C3_missingKeywords_witness :
    ("python").data ∈
      (analyzeWithHuggingFace ("java").data ("python developer kubernetes").data
        .fetchError).missingKeywords ∧
    ("python").data ∈ technicalTerms :=
  ⟨by decide,
    (C3_missingKeywords ("java").data ("python developer kubernetes").data .fetchError).2.1
      ("python").data (by decide)⟩

theorem no_ws_of_mem_splitWs {t s : Str} (ht : t ∈ splitWs s) :
    ∀ c ∈ t, jsWhitespace c = false :=
  no_ws_of_mem_splitWsAux (fun c hc => absurd hc (List.not_mem_nil c)) ht

theorem tokenKept_iff {w : Str} :
    tokenKept w = true ↔
      2 < w.length ∧ w ∉ stopWords ∧ (w ∈ technicalTerms ∨ w.any hasDigitSpecial = true) := by
  rw [tokenKept]
  simp only [Bool.and_eq_true, Bool.or_eq_true, Bool.not_eq_true', decide_eq_true_eq,
    gt_iff_lt]
  constructor
  · rintro ⟨⟨h1, h2⟩, h3⟩
    refine ⟨h1, fun hmem => ?_, ?_⟩
    · have h4 : stopWords.contains w = true := List.elem_iff.mpr hmem
      rw [h4] at h2
      cases h2
    · rcases h3 with h3 | h3
      · exact Or.inl (List.elem_iff.mp h3)
      · exact Or.inr h3
  · rintro ⟨h1, h2, h3⟩
    refine ⟨⟨h1, ?_⟩, ?_⟩
    · cases hsw : stopWords.contains w
      · rfl
      · exact absurd (List.elem_iff.mp hsw) h2
    · rcases h3 with h3 | h3
      · exact Or.inl (List.elem_iff.mpr h3)
      · exact Or.inr h3

/-- C6: a whitespace-split token of the normalised text is a keyword
candidate (a member of the deduplicated `allTerms` union) exactly when
its length exceeds 2, it is not a stop word, and it is a catalog term or
contains a digit or one of the symbols `+ # . -`. -/
theorem C6_token_candidacy (text : Str) (w : Str)
    (hw : w ∈ splitWs (normalizeText text)) :
    w ∈ allTermsOf (normalizeText text) ↔
      2 < w.length ∧ w ∉ stopWords ∧ (w ∈ technicalTerms ∨ w.any hasDigitSpecial = true) := by
  constructor
  · intro h
    rcases mem_allTermsOf h with h1 | h1
    · rw [multiWordTermsOf] at h1
      have h2 := (List.mem_filter.mp h1).2
      rw [Bool.and_eq_true] at h2
      have h3 : ' ' ∈ w := List.elem_iff.mp h2.1
      have h4 := no_ws_of_mem_splitWs hw ' ' h3
      cases h4
    · rw [wordsOf] at h1
      exact tokenKept_iff.mp (List.mem_filter.mp h1).2
  · intro h
    rw [allTermsOf]
    refine mem_dedupAux.mpr ⟨?_, List.not_mem_nil w⟩
    refine List.mem_append.mpr (Or.inr ?_)
    rw [wordsOf]
    exact List.mem_filter.mpr ⟨hw, tokenKept_iff.mpr h⟩

/-- Witness for C6 at the token `python` of a concrete text. -/
theorem C6_token_candidacy_witness :
    ("python").data ∈ allTermsOf (normalizeText ("need python").data) ↔
      2 < ("python").data.length ∧ ("python").data ∉ stopWords ∧
        (("python").data ∈ technicalTerms ∨ ("python").data.any hasDigitSpecial = true) :=
  C6_token_candidacy ("need python").data ("python").data (by decide)

theorem analyze_coreEq (r j : Str) (o o' : HFOutcome) :
    reportCoreEq (analyzeWithHuggingFace r j o) (analyzeWithHuggingFace r j o') := by
  refine ⟨?_, ?_, ?_, ?_, ?_, ?_⟩ <;> simp only [analyzeWithHuggingFace]

/-- C9: every outcome of the external summarisation call other than a
success yielding at least one fragment of trimmed length above 10
produces the fixed static 3-element fallback list, and the outcome never
alters any other report field; on such a success, `improvements` is the
first 3 surviving fragments, each trimmed with a period re-appended. -/
theorem C9_improvements (resumeText jobDescription : Str) (hf : HFOutcome) :
    improvementsOf .fetchError = fallbackImprovements ∧
    improvementsOf .notOk = fallbackImprovements ∧
    improvementsOf .okNoSummary = fallbackImprovements ∧
    (∀ s, survivorsOf s = [] → improvementsOf (.okSummary s) = fallbackImprovements) ∧
    (∀ s, survivorsOf s ≠ [] → improvementsOf (.okSummary s) =
      ((survivorsOf s).take 3).map fun t => jsTrim t ++ ['.']) ∧
    fallbackImprovements.length = 3 ∧
    (analyzeWithHuggingFace resumeText jobDescription hf).improvements = improvementsOf hf ∧
    reportCoreEq (analyzeWithHuggingFace resumeText jobDescription hf)
      (analyzeWithHuggingFace resumeText jobDescription .fetchError) := by
  refine ⟨rfl, rfl, rfl, ?_, ?_, by decide, analyze_improvements _ _ _, analyze_coreEq _ _ _ _⟩
  · intro s h
    rw [improvementsOf, h]
    rfl
  · intro s h
    rw [improvementsOf]
    have hlen : 0 < ((survivorsOf s).take 3).length := by
      rw [List.length_take]
      have := List.length_pos.mpr h
      omega
    simp only [gt_iff_lt, hlen, if_true]

/-- Witness for C9 on a summary with exactly one surviving fragment. -/
theorem C9_improvements_witness :
    survivorsOf ("This fragment is long enough. no.").data ≠ [] ∧
    improvementsOf (.okSummary ("This fragment is long enough. no.").data) =
      ((survivorsOf ("This fragment is long enough. no.").data).take 3).map
        fun t => jsTrim t ++ ['.'] :=
  ⟨by decide,
    (C9_improvements [] [] .fetchError).2.2.2.2.1 ("This fragment is long enough. no.").data
      (by decide)⟩

/-- C10 (amended): for the main implementation, every report field other
than `improvements` is a deterministic function of the two input texts
alone — it is unchanged under any two outcomes of the external
summarisation call, which is the only impure input of
`analyzeWithHuggingFace` in `src/unnamed/part_000`. -/
theorem C10_core_deterministic (resumeText jobDescription : Str) (o o' : HFOutcome) :
    reportCoreEq (analyzeWithHuggingFace resumeText jobDescription o)
      (analyzeWithHuggingFace resumeText jobDescription o') :=
  analyze_coreEq resumeText jobDescription o o'

/-- C10 counterexample: the legacy `analyzeWithHuggingFace` of
`src/server.js` adds `Math.random() * 10` to its match score, so two
evaluations on the same fixed input texts (here `"aaaa"` and `"bbbb"`)
with two possible draws of the random term (0 and 9) return different
`matchScore` values: the analysis of the repository is not free of
randomness. -/
theorem C10_server_randomness :
    serverMatchScore (serverExtractKeywords ("aaaa").data)
        (serverExtractKeywords ("bbbb").data) 0 ≠
      serverMatchScore (serverExtractKeywords ("aaaa").data)
        (serverExtractKeywords ("bbbb").data) 9 := by
  have h1 : serverExtractKeywords ("aaaa").data = [("aaaa").data] := by decide
  have h2 : serverExtractKeywords ("bbbb").data = [("bbbb").data] := by decide
  have h3 : serverMatchedSkills [("aaaa").data] [("bbbb").data] = [] := by decide
  rw [serverMatchScore, serverMatchScore, h1, h2, h3]
  norm_num [jsRoundQ]

theorem firstGoodCapture_append {pre : List (Option Str)} {c : Str} {rest : List (Option Str)}
    (hpre : ∀ x ∈ pre, x = none) (hc : c ≠ []) :
    firstGoodCapture (pre ++ some c :: rest) = some c := by
  induction pre with
  | nil =>
    rw [List.nil_append, firstGoodCapture]
    simp [hc]
  | cons o os ih =>
    have ho : o = none := hpre o (List.mem_cons_self o os)
    subst ho
    rw [List.cons_append, firstGoodCapture]
    exact ih fun x hx => hpre x (List.mem_cons_of_mem none hx)

/-- C8: title and company extraction evaluate their ordered rule lists
first-match-wins, returning the trimmed first capturing group of the
first rule with a usable (non-empty) capture; when no title rule and no
company rule matches, the literal placeholders `Target Position` and
`Target Company` are returned. -/
theorem C8_field_extraction (jd : Str)
    (hT : ∀ o ∈ titleCaptures jd, o = none)
    (hC : ∀ o ∈ companyCaptures jd, o = none) :
    extractTitle jd = ("Target Position").data ∧
    extractCompany jd = ("Target Company").data ∧
    (∀ jd2 pre c rest, titleCaptures jd2 = pre ++ some c :: rest →
      (∀ x ∈ pre, x = none) → c ≠ [] → extractTitle jd2 = jsTrim c) ∧
    (∀ jd2 pre c rest, companyCaptures jd2 = pre ++ some c :: rest →
      (∀ x ∈ pre, x = none) → c ≠ [] → extractCompany jd2 = jsTrim c) := by
  refine ⟨?_, ?_, ?_, ?_⟩
  · have e1 : scanPattern titleP1 jd = none := hT _ (by simp [titleCaptures])
    have e2 : scanPattern titleP2 jd = none := hT _ (by simp [titleCaptures])
    have e3 : scanPatternM titleP3 jd = none := hT _ (by simp [titleCaptures])
    rw [extractTitle, titleCaptures, e1, e2, e3]
    rfl
  · have e1 : scanPattern companyP1 jd = none := hC _ (by simp [companyCaptures])
    have e2 : scanPattern companyP2 jd = none := hC _ (by simp [companyCaptures])
    rw [extractCompany, companyCaptures, e1, e2]
    rfl
  · intro jd2 pre c rest heq hpre hc
    rw [extractTitle, heq, firstGoodCapture_append hpre hc]
  · intro jd2 pre c rest heq hpre hc
    rw [extractCompany, heq, firstGoodCapture_append hpre hc]

/-- Witness for C8 on a job description (`xyz`) matched by no rule. -/
theorem C8_field_extraction_witness :
    extractTitle ("xyz").data = ("Target Position").data ∧
    extractCompany ("xyz").data = ("Target Company").data :=
  ⟨(C8_field_extraction ("xyz").data (by decide) (by decide)).1,
    (C8_field_extraction ("xyz").data (by decide) (by decide)).2.1⟩

/-- C2 counterexample: `normalize` does not retain `+` or `#` (the
replacement regex `[^\w\s.-]` drops them, so `c++` becomes `c `), and it
retains `_`, a character outside the claimed class `[a-z0-9 .+#-]`. -/
theorem C2_normalize_counterexample :
    '+' ∈ ("c++").data ∧ '+' ∉ normalizeText ("c++").data ∧
    '#' ∈ ("c#").data ∧ '#' ∉ normalizeText ("c#").data ∧
    '_' ∈ normalizeText ("a_b").data ∧ specNormalizeClass '_' = false := by decide

theorem lowerChar_not_upper (e : Char) :
    ¬(65 ≤ (lowerChar e).toNat ∧ (lowerChar e).toNat ≤ 90) := by
  rcases lowerChar_spec e with ⟨h1, h2, h3⟩ | ⟨h1, h2⟩
  · omega
  · rw [h2]
    exact h1

theorem keptCharClass_of_cond {d : Char}
    (hup : ¬(65 ≤ d.toNat ∧ d.toNat ≤ 90))
    (hnw : jsWhitespace d = false)
    (hcond : (isWordChar d || jsWhitespace d || d = '.' || d = '-') = true) :
    keptCharClass d = true := by
  rw [jsWhitespace] at hnw
  rw [keptCharClass]
  simp only [isWordChar, jsWhitespace, Bool.or_eq_true, decide_eq_true_eq] at hcond ⊢
  simp only [Bool.or_eq_false_iff, decide_eq_false_iff_not] at hnw
  tauto

theorem keepChar_class_of_lower {e : Char}
    (hnw : jsWhitespace (keepChar (lowerChar e)) = false) :
    keptCharClass (keepChar (lowerChar e)) = true := by
  by_cases hcond : (isWordChar (lowerChar e) || jsWhitespace (lowerChar e) ||
      lowerChar e = '.' || lowerChar e = '-') = true
  · rw [keepChar, if_pos hcond] at hnw ⊢
    exact keptCharClass_of_cond (lowerChar_not_upper e) hnw hcond
  · rw [keepChar, if_neg hcond] at hnw
    cases hnw

theorem count_map_of_eq_iff {f : Char → Char} {c : Char} (hf : ∀ d, f d = c ↔ d = c) :
    ∀ l : Str, (l.map f).count c = l.count c := by
  intro l
  induction l with
  | nil => rfl
  | cons x xs ih =>
    rw [List.map_cons, List.count_cons, List.count_cons, ih]
    by_cases hx : x = c
    · rw [if_pos (by simpa using (hf x).mpr hx), if_pos (by simpa using hx)]
    · rw [if_neg (by simpa using fun h => hx ((hf x).mp h)), if_neg (by simpa using hx)]

theorem lowerChar_eq_iff {c : Char} (h1 : ¬(97 ≤ c.toNat ∧ c.toNat ≤ 122))
    (h2 : ¬(65 ≤ c.toNat ∧ c.toNat ≤ 90)) : ∀ d, lowerChar d = c ↔ d = c := by
  intro d
  constructor
  · intro h
    rcases lowerChar_spec d with ⟨hd1, hd2, hd3⟩ | ⟨_, hd⟩
    · rw [h] at hd3
      omega
    · rw [← hd]
      exact h
  · rintro rfl
    rcases lowerChar_spec d with ⟨hd1, hd2, _⟩ | ⟨_, hd⟩
    · omega
    · exact hd

theorem keepChar_eq_iff {c : Char} (hcs : ' ' ≠ c) (hck : keepChar c = c) :
    ∀ d, keepChar d = c ↔ d = c := by
  intro d
  constructor
  · intro h
    rw [keepChar] at h
    split at h
    · exact h
    · exact absurd h hcs
  · rintro rfl
    exact hck

theorem count_collapseAux {c : Char} (hc : jsWhitespace c = false) :
    ∀ {b : Bool} {s : Str}, (collapseAux b s).count c = s.count c := by
  intro b s
  induction s generalizing b with
  | nil => rfl
  | cons d rest ih =>
    rw [collapseAux]
    split
    · rename_i hd
      have hdc : (d == c) = false := by
        refine beq_eq_false_iff_ne.mpr fun h => ?_
        subst h
        rw [hd] at hc
        cases hc
      split
      · rw [ih, List.count_cons, hdc]
        rfl
      · rw [List.count_cons, List.count_cons, ih, hdc]
        have hsc : (' ' == c) = false := by
          refine beq_eq_false_iff_ne.mpr fun h => ?_
          subst h
          cases hc
        rw [hsc]
    · rw [List.count_cons, List.count_cons, ih]

theorem count_normalizeText_kept {s : Str} {c : Char} (h : c = '.' ∨ c = '-') :
    (normalizeText s).count c = s.count c := by
  have hws : jsWhitespace c = false := by rcases h with rfl | rfl <;> decide
  have h1 : ¬(97 ≤ c.toNat ∧ c.toNat ≤ 122) := by rcases h with rfl | rfl <;> decide
  have h2 : ¬(65 ≤ c.toNat ∧ c.toNat ≤ 90) := by rcases h with rfl | rfl <;> decide
  have hcs : ' ' ≠ c := by rcases h with rfl | rfl <;> decide
  have hck : keepChar c = c := by rcases h with rfl | rfl <;> decide
  rw [normalizeText, collapseWs, count_collapseAux hws,
    count_map_of_eq_iff (keepChar_eq_iff hcs hck), jsToLower,
    count_map_of_eq_iff (lowerChar_eq_iff h1 h2)]

theorem collapseAux_true_head (s : Str) :
    collapseAux true s = [] ∨
      ∃ c cs, collapseAux true s = c :: cs ∧ jsWhitespace c = false := by
  induction s with
  | nil => exact Or.inl rfl
  | cons d rest ih =>
    rw [collapseAux]
    split
    · simpa using ih
    · rename_i hd
      exact Or.inr ⟨d, collapseAux false rest, by simp, Bool.eq_false_iff.mpr hd⟩

theorem noDoubleWs_collapseAux : ∀ {b : Bool} {s : Str}, noDoubleWs (collapseAux b s) = true := by
  intro b s
  induction s generalizing b with
  | nil => rfl
  | cons d rest ih =>
    rw [collapseAux]
    split
    · split
      · exact ih
      · rcases collapseAux_true_head rest with h | ⟨c, cs, h, hcws⟩
        · rw [h]
          rfl
        · rw [h, noDoubleWs, hcws]
          have ih2 : noDoubleWs (c :: cs) = true := h ▸ ih
          rw [ih2]
          rfl
    · rename_i hd
      cases hX : collapseAux false rest with
      | nil => rfl
      | cons x xs =>
        rw [noDoubleWs, Bool.eq_false_iff.mpr hd]
        have ih2 : noDoubleWs (x :: xs) = true := hX ▸ ih
        rw [ih2]
        rfl

/-- C2 (amended): the output of `normalize` contains no character
outside the class `[a-z0-9_ .-]` plus space (the regex `[^\w\s.-]` keeps
`_` and drops `+` and `#`, contrary to the original claim); every
occurrence of `.` and `-` from the input is retained; and the output
contains no run of two or more consecutive whitespace characters. -/
theorem C2_normalize_amended (s : Str) :
    (∀ c ∈ normalizeText s, keptCharClass c = true) ∧
    (∀ c, c = '.' ∨ c = '-' → (normalizeText s).count c = s.count c) ∧
    noDoubleWs (normalizeText s) = true := by
  refine ⟨?_, fun c h => count_normalizeText_kept h, noDoubleWs_collapseAux⟩
  intro c hc
  rcases mem_collapseAux hc with rfl | ⟨h1, hnw⟩
  · decide
  · obtain ⟨d, hd, rfl⟩ := List.mem_map.mp h1
    obtain ⟨e, _, rfl⟩ := List.mem_map.mp hd
    exact keepChar_class_of_lower hnw

/-- Witness for C2 (amended) on a concrete string with periods, hyphens
and repeated whitespace. -/
theorem C2_normalize_amended_witness :
    (normalizeText ("a.b -  c.").data).count '.' = (("a.b -  c.").data).count '.' :=
  (C2_normalize_amended ("a.b -  c.").data).2.1 '.' (Or.inl rfl)

